import Mathlib

/-!
Verification of the multi-threaded file search engine.

A shallow embedding of `src/searchengine.cpp` (the only source file):

* `strContains` models `std::string::find(term) != npos` (literal substring
  search on one line).
* `scanLines` / `matchingLines` model the line loop of
  `SearchEngine::searchInFile` (1-indexed line counter, one entry per
  matching line).
* `searchInFile` models the whole member function: an unopenable file or a
  file with no matching line contributes nothing to `results`.
* A directory tree is modelled as the list of its regular files in
  traversal order (`FileEntry`); a concurrent run's completion order is an
  arbitrary permutation of that list, and the partially completed state is
  an arbitrary sub-permutation (`List.Subperm`).
* The thread pool (`ThreadPool` in the source) is modelled as a labelled
  transition system `PoolStep` over `PoolState`, one transition per
  mutex-protected critical section of the worker loop / `enqueue` /
  destructor.
* `mainRun` models `main` (argument check, existence check, the catch
  blocks, exit codes).
-/

namespace SearchEngineSpec

/-- Does `t` occur at the head of `l`?  Models a successful match of
`std::string::find` at one position. -/
def listPre : List Char → List Char → Bool
  | [], _ => true
  | _ :: _, [] => false
  | a :: as, b :: bs => if a = b then listPre as bs else false

/-- Models `line.find(searchTerm) != std::string::npos`: the term occurs as a
literal substring of the line (at any position, including position 0 of an
empty line for the empty term). -/
def strContains (term : List Char) : List Char → Bool
  | [] => listPre term []
  | c :: rest => listPre term (c :: rest) || strContains term rest

/-- The `while (std::getline(...))` loop of `SearchEngine::searchInFile`:
`lineNumber` starts at 0 and is incremented before the test, so the head of
`lines` carries number `lineNumber + 1`.  Returns `matchingLines`. -/
def scanLines (term : List Char) : List (List Char) → Nat → List Nat
  | [], _ => []
  | l :: ls, lineNumber =>
    if strContains term l then
      (lineNumber + 1) :: scanLines term ls (lineNumber + 1)
    else
      scanLines term ls (lineNumber + 1)

/-- The matching line numbers collected by `SearchEngine::searchInFile` for
a file whose content is the list `lines`. -/
def matchingLines (term : String) (lines : List String) : List Nat :=
  scanLines term.data (lines.map String.data) 0

/-- One regular file of the directory tree: its path and its content as a
list of lines, `none` when `std::ifstream` fails to open it (missing,
permission denied). -/
structure FileEntry where
  path : String
  content : Option (List String)
deriving DecidableEq, Repr

/-- Models `SearchEngine::searchInFile`: returns the pair appended to `results`,
or `none` when the file cannot be opened (`!file.is_open()`) or when
`matchingLines` is empty. -/
def searchInFile (filepath : String) (content : Option (List String))
    (term : String) : Option (String × List Nat) :=
  match content with
  | none => none
  | some lines =>
    let ml := matchingLines term lines
    if ml.isEmpty then none else some (filepath, ml)

/-- The boolean returned by `SearchEngine::searchInFile`. -/
def searchInFileHit (filepath : String) (content : Option (List String))
    (term : String) : Bool :=
  (searchInFile filepath content term).isSome

/-- The value of `total_files` after the counting pass of `SearchEngine::search`: one per
regular file of the tree. -/
def totalFiles (tree : List FileEntry) : Nat := tree.length

/-- The `results` vector after the tasks listed in `order` have completed,
in that completion order: each completed task appends its
`searchInFile` entry, if any. -/
def runResults (order : List FileEntry) (term : String) :
    List (String × List Nat) :=
  order.filterMap (fun e => searchInFile e.path e.content term)

/-- The value of `files_processed` after the tasks listed in `done` have completed: each
task does `files_processed++` exactly once, match or not. -/
def filesProcessed (done : List FileEntry) : Nat := done.length

/-- The driver's completion condition: the `while (files_processed <
total_files)` poll loop has exited. -/
def runComplete (tree done : List FileEntry) : Prop :=
  filesProcessed done = totalFiles tree

/-- The `(files_processed, total_files)` pairs read by the progress print
inside each enqueued task: the i-th completed task reads `i + 1` for
`files_processed` (sequentialised) and divides by `total`. -/
def progressEvents (total : Nat) (done : List FileEntry) : List (Nat × Nat) :=
  (List.range done.length).map (fun i => (i + 1, total))

/-- The `Found <N> files containing the search term.` line. -/
def countLine (results : List (String × List Nat)) : String :=
  "Found " ++ toString results.length ++ " files containing the search term."

/-- The `Results:` block: absent when `results` is empty, otherwise one
`File:` line and one comma-joined `Matching lines:` line per entry. -/
def resultsBlock (results : List (String × List Nat)) : List String :=
  if results.isEmpty then []
  else
    "Results:" ::
      results.flatMap (fun r =>
        ["File: " ++ r.1,
         "  Matching lines: " ++ String.intercalate ", " (r.2.map toString)])

/-!
The thread pool (`ThreadPool` in the source).

Each `PoolStep` transition is one mutex-protected critical section of the
source: `enqueue` (lines 47–53), a worker claiming the queue front (lines
32–40), a worker returning from the loop (line 37), the destructor setting
`stop` (lines 56–59).  Running `task()` outside the lock (line 41) is the
`finish` transition.  Tasks are identified by their submission index, so
`nextId` is the number of `enqueue` calls so far.  `main` only enqueues
before the destructor runs, hence `submit` requires `stop = false`. -/

/-- The shared state of `ThreadPool` plus bookkeeping of the live workers:
`idle` workers are inside `condition.wait`, `busy` workers are executing a
claimed task, `exited` workers have returned from the lambda. -/
structure PoolState where
  queue : List Nat
  running : Multiset Nat
  executed : Multiset Nat
  submitted : Multiset Nat
  stop : Bool
  idle : Nat
  busy : Nat
  exited : Nat
deriving DecidableEq

/-- The pool right after `ThreadPool(threads)`: `threads` workers blocked on
the empty queue, `stop = false`. -/
def initPool (threads : Nat) : PoolState :=
  { queue := [], running := 0, executed := 0, submitted := 0,
    stop := false, idle := threads, busy := 0, exited := 0 }

/-- One critical section of the pool.  `submit` is `enqueue` (the driver
only enqueues before the destructor sets `stop`); `take` is a woken worker
popping the queue front; `finish` is `task()` returning and the worker
re-entering `condition.wait`; `setStop` is the destructor's `stop = true`;
`exit` is `if (this->stop && this->tasks.empty()) return`. -/
inductive PoolStep : PoolState → PoolState → Prop
  | submit (s : PoolState) (h : s.stop = false) :
      PoolStep s { s with queue := s.queue ++ [s.submitted.card],
                          submitted := insert s.submitted.card s.submitted }
  | take (s : PoolState) (t : Nat) (rest : List Nat)
      (hq : s.queue = t :: rest) (hi : 0 < s.idle) :
      PoolStep s { s with queue := rest, running := insert t s.running,
                          idle := s.idle - 1, busy := s.busy + 1 }
  | finish (s : PoolState) (t : Nat) (ht : t ∈ s.running) :
      PoolStep s { s with running := s.running.erase t,
                          executed := insert t s.executed,
                          busy := s.busy - 1, idle := s.idle + 1 }
  | setStop (s : PoolState) :
      PoolStep s { s with stop := true }
  | exit (s : PoolState) (hs : s.stop = true) (hq : s.queue = [])
      (hi : 0 < s.idle) :
      PoolStep s { s with idle := s.idle - 1, exited := s.exited + 1 }

/-- States the pool can be in after a sequence of critical sections from
`initPool threads`. -/
inductive PoolReach (threads : Nat) : PoolState → Prop
  | init : PoolReach threads (initPool threads)
  | step {s s' : PoolState} : PoolReach threads s → PoolStep s s' →
      PoolReach threads s'

/-!
Embedding of `main` (lines 153–182). -/

/-- The ambient filesystem as `main` sees it: whether the directory path
exists (`fs::exists`), and the regular files found by
`fs::recursive_directory_iterator` — `none` when traversal throws
`fs::filesystem_error`. -/
structure FS where
  pathExists : Bool
  listing : Option (List FileEntry)

/-- What one invocation did: the process exit code, the line printed to
`std::cerr` (if any), and whether `engine.search` ran. -/
structure MainOutcome where
  exitCode : Nat
  errLine : Option String
  searched : Bool
deriving DecidableEq, Repr

/-- Models `main`: usage check (`argc < 3`), existence check, the search inside
`try`, and the `catch` blocks.  `args` includes `argv[0]`. -/
def mainRun (fsys : FS) (args : List String) : MainOutcome :=
  if args.length < 3 then
    { exitCode := 1, errLine := none, searched := false }
  else if fsys.pathExists = false then
    { exitCode := 1, errLine := some "Directory does not exist.",
      searched := false }
  else
    match fsys.listing with
    | none =>
        { exitCode := 1, errLine := some "Filesystem error", searched := true }
    | some _ =>
        { exitCode := 0, errLine := none, searched := true }

/-!
Lemmas about the line scanner. -/

theorem mem_scanLines {term : List Char} {ls : List (List Char)} {k n : Nat} :
    n ∈ scanLines term ls k ↔
      ∃ i, ∃ h : i < ls.length, n = k + i + 1 ∧
        strContains term (ls.get ⟨i, h⟩) = true := by
  induction ls generalizing k with
  | nil => simp [scanLines]
  | cons l ls ih =>
    simp only [scanLines]
    by_cases hc : strContains term l
    · rw [if_pos hc]
      simp only [List.mem_cons, ih]
      constructor
      · rintro (rfl | ⟨i, h, hn, hi⟩)
        · exact ⟨0, by simp, by omega, by simpa using hc⟩
        · exact ⟨i + 1, by simpa using h, by omega, by simpa using hi⟩
      · rintro ⟨i, h, hn, hi⟩
        cases i with
        | zero => left; simpa using hn
        | succ j =>
          right
          exact ⟨j, by simpa using h, by omega, by simpa using hi⟩
    · rw [if_neg hc]
      simp only [ih]
      constructor
      · rintro ⟨i, h, hn, hi⟩
        exact ⟨i + 1, by simpa using h, by omega, by simpa using hi⟩
      · rintro ⟨i, h, hn, hi⟩
        cases i with
        | zero =>
          exfalso
          exact hc (by simpa using hi)
        | succ j =>
          exact ⟨j, by simpa using h, by omega, by simpa using hi⟩

theorem scanLines_lower {term : List Char} {ls : List (List Char)} {k n : Nat}
    (h : n ∈ scanLines term ls k) : k < n := by
  obtain ⟨i, hi, hn, _⟩ := mem_scanLines.mp h
  omega

theorem scanLines_sorted (term : List Char) (ls : List (List Char)) (k : Nat) :
    (scanLines term ls k).Sorted (· < ·) := by
  induction ls generalizing k with
  | nil => simp [scanLines]
  | cons l ls ih =>
    simp only [scanLines]
    by_cases hc : strContains term l
    · rw [if_pos hc]
      exact List.sorted_cons.mpr ⟨fun n hn => scanLines_lower hn, ih (k + 1)⟩
    · rw [if_neg hc]
      exact ih (k + 1)

theorem scanLines_eq_nil {term : List Char} {ls : List (List Char)} {k : Nat} :
    scanLines term ls k = [] ↔ ∀ l ∈ ls, strContains term l = false := by
  induction ls generalizing k with
  | nil => simp [scanLines]
  | cons l ls ih =>
    simp only [scanLines]
    by_cases hc : strContains term l
    · rw [if_pos hc]
      simp only [List.mem_cons]
      constructor
      · intro h; cases h
      · intro h
        have := h l (Or.inl rfl)
        rw [hc] at this
        cases this
    · rw [if_neg hc]
      rw [ih]
      constructor
      · intro h m hm
        rcases List.mem_cons.mp hm with rfl | hm
        · simpa using hc
        · exact h m hm
      · intro h m hm
        exact h m (List.mem_cons_of_mem l hm)

theorem mem_matchingLines {term : String} {lines : List String} {n : Nat} :
    n ∈ matchingLines term lines ↔
      ∃ i, ∃ h : i < lines.length, n = i + 1 ∧
        strContains term.data (lines.get ⟨i, h⟩).data = true := by
  unfold matchingLines
  rw [mem_scanLines]
  constructor
  · rintro ⟨i, h, hn, hi⟩
    refine ⟨i, by simpa using h, by omega, ?_⟩
    rwa [List.get_map] at hi
  · rintro ⟨i, h, hn, hi⟩
    refine ⟨i, by simpa using h, by omega, ?_⟩
    rwa [List.get_map]

theorem matchingLines_sorted (term : String) (lines : List String) :
    (matchingLines term lines).Sorted (· < ·) :=
  scanLines_sorted term.data (lines.map String.data) 0

theorem matchingLines_eq_nil {term : String} {lines : List String} :
    matchingLines term lines = [] ↔
      ∀ l ∈ lines, strContains term.data l.data = false := by
  unfold matchingLines
  rw [scanLines_eq_nil]
  constructor
  · intro h l hl
    exact h l.data (List.mem_map_of_mem String.data hl)
  · intro h m hm
    obtain ⟨l, hl, rfl⟩ := List.mem_map.mp hm
    exact h l hl

theorem strContains_nil_term (l : List Char) : strContains [] l = true := by
  cases l <;> simp [strContains, listPre]

theorem scanLines_nil_term (ls : List (List Char)) (k : Nat) :
    scanLines [] ls k = (List.range ls.length).map (fun i => k + i + 1) := by
  induction ls generalizing k with
  | nil => simp [scanLines]
  | cons l ls ih =>
    simp only [scanLines, strContains_nil_term, if_true, List.length_cons]
    rw [ih (k + 1), List.range_succ_eq_map]
    simp only [List.map_cons, List.map_map]
    refine List.cons_eq_cons.mpr ⟨by omega, ?_⟩
    apply List.map_congr_left
    intro i _
    simp only [Function.comp_apply]
    omega

theorem matchingLines_empty_term (lines : List String) :
    matchingLines "" lines = (List.range lines.length).map (fun i => i + 1) := by
  unfold matchingLines
  rw [show ("" : String).data = [] from rfl, scanLines_nil_term]
  simp only [List.length_map]
  apply List.map_congr_left
  intro i _
  omega

theorem matchingLines_ne_nil {term : String} {lines : List String} :
    matchingLines term lines ≠ [] ↔
      ∃ l ∈ lines, strContains term.data l.data = true := by
  rw [Ne, matchingLines_eq_nil]
  push_neg
  simp only [Bool.not_eq_false]

theorem searchInFile_eq_some {p : String} {c : Option (List String)}
    {term : String} {r : String × List Nat} :
    searchInFile p c term = some r ↔
      ∃ ls, c = some ls ∧ matchingLines term ls ≠ [] ∧
        r = (p, matchingLines term ls) := by
  cases c with
  | none => simp [searchInFile]
  | some ls =>
    simp only [searchInFile]
    by_cases h : (matchingLines term ls).isEmpty
    · rw [if_pos h]
      rw [List.isEmpty_iff] at h
      simp [h]
    · rw [if_neg h, Option.some_inj]
      rw [List.isEmpty_iff] at h
      constructor
      · rintro rfl
        exact ⟨ls, rfl, h, rfl⟩
      · rintro ⟨ls', hls, -, rfl⟩
        obtain rfl := Option.some_inj.mp hls
        rfl

/-!
The claims about the file scanner. -/

/-- C4: for every readable file and non-empty search term, the scanner's
list of line numbers is strictly increasing (hence 1-indexed, sorted and
duplicate-free: a line with several or overlapping occurrences appears
once), and contains exactly the numbers of the 1-indexed lines that contain
the term as a literal substring. -/
theorem matchingLines_spec (term : String) (lines : List String)
    (hterm : term ≠ "") :
    (matchingLines term lines).Sorted (· < ·) ∧
    (matchingLines term lines).Nodup ∧
    ∀ n, n ∈ matchingLines term lines ↔
      ∃ i, ∃ h : i < lines.length, n = i + 1 ∧
        strContains term.data (lines.get ⟨i, h⟩).data = true := by
  refine ⟨matchingLines_sorted term lines,
    (matchingLines_sorted term lines).nodup, ?_⟩
  intro n
  exact mem_matchingLines

/-- Witness for C4 at the term `"fo"` and a three-line file. -/
theorem matchingLines_spec_witness :
    ("fo" : String) ≠ "" ∧
    ((matchingLines "fo" ["xfoy", "bar", "fofo"]).Sorted (· < ·) ∧
     (matchingLines "fo" ["xfoy", "bar", "fofo"]).Nodup ∧
     ∀ n, n ∈ matchingLines "fo" ["xfoy", "bar", "fofo"] ↔
       ∃ i, ∃ h : i < (["xfoy", "bar", "fofo"] : List String).length,
         n = i + 1 ∧
         strContains ("fo" : String).data
           ((["xfoy", "bar", "fofo"] : List String).get ⟨i, h⟩).data = true) :=
  ⟨by decide, matchingLines_spec "fo" ["xfoy", "bar", "fofo"] (by decide)⟩

/-- C9: with the empty search term, `line.find("")` returns 0 on every line,
so every line of a readable file matches; a readable file with at least one
line is reported with all of its line numbers. -/
theorem emptyTerm_matches_all (p : String) (lines : List String)
    (hne : lines ≠ []) :
    matchingLines "" lines = (List.range lines.length).map (fun i => i + 1) ∧
    searchInFile p (some lines) "" =
      some (p, (List.range lines.length).map (fun i => i + 1)) := by
  refine ⟨matchingLines_empty_term lines, ?_⟩
  have hlen : lines.length ≠ 0 := by
    simpa [List.length_eq_zero] using hne
  simp only [searchInFile, matchingLines_empty_term]
  rw [if_neg]
  simp only [List.isEmpty_iff, List.map_eq_nil_iff, List.range_eq_nil]
  exact hlen

/-- Witness for C9 at a two-line file. -/
theorem emptyTerm_matches_all_witness :
    (["hello", ""] : List String) ≠ [] ∧
    (matchingLines "" ["hello", ""] =
        (List.range (["hello", ""] : List String).length).map (fun i => i + 1) ∧
     searchInFile "a.txt" (some ["hello", ""]) "" =
       some ("a.txt",
         (List.range (["hello", ""] : List String).length).map (fun i => i + 1))) :=
  ⟨by decide, emptyTerm_matches_all "a.txt" ["hello", ""] (by decide)⟩

/-- C5: a file that cannot be opened contributes nothing: `searchInFile`
yields no entry, and a run on a tree containing the unreadable file produces
the same `results` and the same `files_processed` as the same run with the
file replaced by a readable zero-match file — the error is never surfaced
and is indistinguishable from a true zero-match outcome. -/
theorem unreadable_file_silent (p term : String) (lines : List String)
    (hml : matchingLines term lines = []) (pre post : List FileEntry) :
    searchInFile p none term = none ∧
    runResults (pre ++ ⟨p, none⟩ :: post) term =
      runResults (pre ++ ⟨p, some lines⟩ :: post) term ∧
    filesProcessed (pre ++ ⟨p, none⟩ :: post) =
      filesProcessed (pre ++ ⟨p, some lines⟩ :: post) := by
  refine ⟨rfl, ?_, by simp [filesProcessed]⟩
  simp [runResults, List.filterMap_append, List.filterMap_cons, searchInFile,
    hml]

/-- Witness for C5: an unreadable `"a.txt"` amid one matching file. -/
theorem unreadable_file_silent_witness :
    matchingLines "zz" ["hello"] = [] ∧
    (searchInFile "a.txt" none "zz" = none ∧
     runResults ([] ++ ⟨"a.txt", none⟩ :: [⟨"b.txt", some ["zz"]⟩]) "zz" =
       runResults ([] ++ ⟨"a.txt", some ["hello"]⟩ :: [⟨"b.txt", some ["zz"]⟩])
         "zz" ∧
     filesProcessed ([] ++ ⟨"a.txt", none⟩ :: [⟨"b.txt", some ["zz"]⟩]) =
       filesProcessed
         ([] ++ ⟨"a.txt", some ["hello"]⟩ :: [⟨"b.txt", some ["zz"]⟩])) :=
  ⟨by decide, unreadable_file_silent "a.txt" "zz" ["hello"] (by decide) [] _⟩

/-!
The claims about the whole run (driver, counters, results). -/

/-- C1: for every tree and term, whatever completion order the workers
interleave to, the set of reported file paths is exactly the set of regular
files of the tree whose content contains the term on at least one line —
unreadable files and zero-match files produce no entry. -/
theorem search_reports_exactly_matching_files (tree order : List FileEntry)
    (term : String) (hperm : order.Perm tree) (p : String) :
    p ∈ (runResults order term).map Prod.fst ↔
      ∃ e ∈ tree, e.path = p ∧ ∃ ls, e.content = some ls ∧
        ∃ l ∈ ls, strContains term.data l.data = true := by
  rw [List.mem_map]
  constructor
  · rintro ⟨r, hr, rfl⟩
    rw [runResults, List.mem_filterMap] at hr
    obtain ⟨e, he, hse⟩ := hr
    obtain ⟨ls, hc, hne, rfl⟩ := searchInFile_eq_some.mp hse
    exact ⟨e, hperm.mem_iff.mp he, rfl, ls, hc, matchingLines_ne_nil.mp hne⟩
  · rintro ⟨e, he, rfl, ls, hc, hl⟩
    refine ⟨(e.path, matchingLines term ls), ?_, rfl⟩
    rw [runResults, List.mem_filterMap]
    exact ⟨e, hperm.mem_iff.mpr he,
      searchInFile_eq_some.mpr ⟨ls, hc, matchingLines_ne_nil.mpr hl, rfl⟩⟩

/-- Witness for C1: a three-file tree scanned in reversed completion
order; `"a.txt"` is reported exactly because one of its lines contains
`"foo"`. -/
theorem search_reports_exactly_matching_files_witness :
    ([⟨"c.txt", none⟩, ⟨"b.txt", some ["bar"]⟩, ⟨"a.txt", some ["xfooy", "z"]⟩]
        : List FileEntry).Perm
      [⟨"a.txt", some ["xfooy", "z"]⟩, ⟨"b.txt", some ["bar"]⟩,
        ⟨"c.txt", none⟩] ∧
    ("a.txt" ∈
        (runResults
          [⟨"c.txt", none⟩, ⟨"b.txt", some ["bar"]⟩,
            ⟨"a.txt", some ["xfooy", "z"]⟩] "foo").map Prod.fst ↔
      ∃ e ∈ ([⟨"a.txt", some ["xfooy", "z"]⟩, ⟨"b.txt", some ["bar"]⟩,
          ⟨"c.txt", none⟩] : List FileEntry), e.path = "a.txt" ∧
        ∃ ls, e.content = some ls ∧
          ∃ l ∈ ls, strContains ("foo" : String).data l.data = true) :=
  ⟨by decide,
    search_reports_exactly_matching_files
      [⟨"a.txt", some ["xfooy", "z"]⟩, ⟨"b.txt", some ["bar"]⟩, ⟨"c.txt", none⟩]
      [⟨"c.txt", none⟩, ⟨"b.txt", some ["bar"]⟩, ⟨"a.txt", some ["xfooy", "z"]⟩]
      "foo" (by decide) "a.txt"⟩

/-- C7: two complete runs on the unmodified tree — each an arbitrary
interleaving of the same tasks — produce permutations of each other, hence
the same set of (path, matching-line-numbers) pairs; only the order may
differ. -/
theorem search_idempotent (tree o1 o2 : List FileEntry) (term : String)
    (h1 : o1.Perm tree) (h2 : o2.Perm tree) :
    (runResults o1 term).Perm (runResults o2 term) ∧
    ∀ r, r ∈ runResults o1 term ↔ r ∈ runResults o2 term := by
  have hp : (runResults o1 term).Perm (runResults o2 term) :=
    List.Perm.filterMap _ (h1.trans h2.symm)
  exact ⟨hp, fun r => hp.mem_iff⟩

/-- Witness for C7: the same two-file tree consumed in the two possible
completion orders. -/
theorem search_idempotent_witness :
    ([⟨"a", some ["q"]⟩, ⟨"b", some ["qq"]⟩] : List FileEntry).Perm
        [⟨"a", some ["q"]⟩, ⟨"b", some ["qq"]⟩] ∧
    ([⟨"b", some ["qq"]⟩, ⟨"a", some ["q"]⟩] : List FileEntry).Perm
        [⟨"a", some ["q"]⟩, ⟨"b", some ["qq"]⟩] ∧
    ((runResults [⟨"a", some ["q"]⟩, ⟨"b", some ["qq"]⟩] "q").Perm
        (runResults [⟨"b", some ["qq"]⟩, ⟨"a", some ["q"]⟩] "q") ∧
     ∀ r, r ∈ runResults [⟨"a", some ["q"]⟩, ⟨"b", some ["qq"]⟩] "q" ↔
       r ∈ runResults [⟨"b", some ["qq"]⟩, ⟨"a", some ["q"]⟩] "q") :=
  ⟨by decide, by decide,
    search_idempotent [⟨"a", some ["q"]⟩, ⟨"b", some ["qq"]⟩]
      [⟨"a", some ["q"]⟩, ⟨"b", some ["qq"]⟩]
      [⟨"b", some ["qq"]⟩, ⟨"a", some ["q"]⟩] "q" (by decide) (by decide)⟩

/-- C3: during a run on a stable tree, when the completed tasks `done` form
a sub-permutation of the tree's files, `files_processed` never exceeds
`total_files`; the driver's poll loop exits exactly when every task has
completed; `results` never holds more entries than `total_files`; `total` is
the counting pass's value alone (independent of any task); and each
completed task adds exactly 1 to `files_processed`, match or not. -/
theorem counters_invariant (tree done : List FileEntry) (term : String)
    (hsub : done.Subperm tree) :
    filesProcessed done ≤ totalFiles tree ∧
    (runComplete tree done ↔ done.Perm tree) ∧
    (runResults done term).length ≤ totalFiles tree ∧
    totalFiles tree = tree.length ∧
    ∀ e, filesProcessed (done ++ [e]) = filesProcessed done + 1 := by
  have hlen := hsub.length_le
  refine ⟨hlen, ?_, ?_, rfl, fun e => by simp [filesProcessed]⟩
  · unfold runComplete filesProcessed totalFiles
    constructor
    · intro h
      exact hsub.perm_of_length_le (le_of_eq h.symm)
    · intro h
      exact h.length_eq
  · calc (runResults done term).length ≤ done.length :=
          List.length_filterMap_le _ _
      _ ≤ tree.length := hlen

/-- Witness for C3: one of two tasks completed. -/
theorem counters_invariant_witness :
    ([⟨"a", some ["t"]⟩] : List FileEntry).Subperm
        [⟨"a", some ["t"]⟩, ⟨"b", none⟩] ∧
    (filesProcessed [⟨"a", some ["t"]⟩] ≤
        totalFiles [⟨"a", some ["t"]⟩, ⟨"b", none⟩] ∧
     (runComplete [⟨"a", some ["t"]⟩, ⟨"b", none⟩] [⟨"a", some ["t"]⟩] ↔
        ([⟨"a", some ["t"]⟩] : List FileEntry).Perm
          [⟨"a", some ["t"]⟩, ⟨"b", none⟩]) ∧
     (runResults [⟨"a", some ["t"]⟩] "t").length ≤
        totalFiles [⟨"a", some ["t"]⟩, ⟨"b", none⟩] ∧
     totalFiles [⟨"a", some ["t"]⟩, ⟨"b", none⟩] =
        ([⟨"a", some ["t"]⟩, ⟨"b", none⟩] : List FileEntry).length ∧
     ∀ e, filesProcessed ([⟨"a", some ["t"]⟩] ++ [e]) =
        filesProcessed [⟨"a", some ["t"]⟩] + 1) :=
  ⟨by decide,
    counters_invariant [⟨"a", some ["t"]⟩, ⟨"b", none⟩] [⟨"a", some ["t"]⟩]
      "t" (by decide)⟩

/-- C10: the progress percentage's division by `total_files` runs only
inside an enqueued task, and a task exists only when the counting pass saw
at least one regular file: at every read of the pair
`(files_processed, total_files)` by the progress print, the denominator is
at least 1; on an empty tree no progress line is printed at all. -/
theorem progress_division_safe (tree done : List FileEntry)
    (hsub : done.Subperm tree) :
    (∀ pr tot, (pr, tot) ∈ progressEvents (totalFiles tree) done →
      1 ≤ tot ∧ 1 ≤ pr ∧ tot = totalFiles tree) ∧
    (tree = [] → progressEvents (totalFiles tree) done = []) := by
  constructor
  · intro pr tot hmem
    simp only [progressEvents, List.mem_map, List.mem_range,
      Prod.mk.injEq] at hmem
    obtain ⟨i, hi, rfl, rfl⟩ := hmem
    have hlen := hsub.length_le
    refine ⟨?_, by omega, rfl⟩
    unfold totalFiles
    omega
  · intro h
    subst h
    have hnil : done = [] := List.subperm_nil.mp hsub
    simp [progressEvents, hnil]

/-- Witness for C10: one completed task out of a one-file tree. -/
theorem progress_division_safe_witness :
    ([⟨"a", some ["t"]⟩] : List FileEntry).Subperm [⟨"a", some ["t"]⟩] ∧
    ((∀ pr tot,
        (pr, tot) ∈ progressEvents (totalFiles [⟨"a", some ["t"]⟩])
          [⟨"a", some ["t"]⟩] →
        1 ≤ tot ∧ 1 ≤ pr ∧ tot = totalFiles [⟨"a", some ["t"]⟩]) ∧
     (([⟨"a", some ["t"]⟩] : List FileEntry) = [] →
        progressEvents (totalFiles [⟨"a", some ["t"]⟩]) [⟨"a", some ["t"]⟩] =
          [])) :=
  ⟨by decide,
    progress_division_safe [⟨"a", some ["t"]⟩] [⟨"a", some ["t"]⟩]
      (by decide)⟩

/-!
The claims about `main`. -/

/-- C6: when the directory-path argument names no existing path (and enough
arguments were given to get past the usage check), `main` prints
`Directory does not exist.` to the error stream, exits with code 1, and
never invokes the search engine. -/
theorem missing_directory_exits (fsys : FS) (args : List String)
    (hargs : 3 ≤ args.length) (hex : fsys.pathExists = false) :
    mainRun fsys args =
      { exitCode := 1, errLine := some "Directory does not exist.",
        searched := false } := by
  unfold mainRun
  rw [if_neg (by omega), if_pos hex]

/-- Witness for C6 at a nonexistent path. -/
theorem missing_directory_exits_witness :
    3 ≤ (["prog", "/nope", "term"] : List String).length ∧
    ({ pathExists := false, listing := none } : FS).pathExists = false ∧
    mainRun { pathExists := false, listing := none }
        ["prog", "/nope", "term"] =
      { exitCode := 1, errLine := some "Directory does not exist.",
        searched := false } :=
  ⟨by decide, by decide,
    missing_directory_exits { pathExists := false, listing := none }
      ["prog", "/nope", "term"] (by decide) (by decide)⟩

/-- C8: on an existing directory with no regular files, the counting pass
fixes `total = 0`, the run is complete at once (the poll loop exits
immediately), `results` is empty, the count line reads
`Found 0 files containing the search term.`, no `Results:` block is
printed, and `main` returns 0 — as it does on any successful run,
matches or none. -/
theorem empty_directory_run (term : String) (fsys : FS) (args : List String)
    (hargs : 3 ≤ args.length) (hex : fsys.pathExists = true)
    (hlist : fsys.listing = some []) :
    totalFiles [] = 0 ∧
    runComplete [] [] ∧
    runResults [] term = [] ∧
    countLine (runResults [] term) =
      "Found 0 files containing the search term." ∧
    resultsBlock (runResults [] term) = [] ∧
    (mainRun fsys args).exitCode = 0 := by
  refine ⟨rfl, rfl, rfl, by show countLine [] = _; rfl, rfl, ?_⟩
  unfold mainRun
  rw [if_neg (by omega), if_neg (by simp [hex]), hlist]

/-- Witness for C8 at an existing empty directory. -/
theorem empty_directory_run_witness :
    3 ≤ (["prog", "/tmp/empty", "x"] : List String).length ∧
    ({ pathExists := true, listing := some [] } : FS).pathExists = true ∧
    ({ pathExists := true, listing := some [] } : FS).listing = some [] ∧
    (totalFiles [] = 0 ∧
     runComplete [] [] ∧
     runResults [] "x" = [] ∧
     countLine (runResults [] "x") =
       "Found 0 files containing the search term." ∧
     resultsBlock (runResults [] "x") = [] ∧
     (mainRun { pathExists := true, listing := some [] }
        ["prog", "/tmp/empty", "x"]).exitCode = 0) :=
  ⟨by decide, by decide, by decide,
    empty_directory_run "x" { pathExists := true, listing := some [] }
      ["prog", "/tmp/empty", "x"] (by decide) (by decide) (by decide)⟩

/-!
The thread-pool invariant and the claim about task conservation. -/

/-- The inductive invariant of the pool: every submitted task is in exactly
one place (queue, claimed by a worker, or executed); the busy-worker count
matches the claimed tasks; workers are conserved; once a worker has exited,
`stop` is set and the queue is empty forever; task identities are distinct
and below the submission counter. -/
def PoolInv (threads : Nat) (s : PoolState) : Prop :=
  s.submitted = (s.queue : Multiset Nat) + s.running + s.executed ∧
  Multiset.card s.running = s.busy ∧
  s.idle + s.busy + s.exited = threads ∧
  (0 < s.exited → s.stop = true ∧ s.queue = []) ∧
  s.submitted.Nodup ∧
  ∀ t ∈ s.submitted, t < Multiset.card s.submitted

theorem poolInv_init (threads : Nat) : PoolInv threads (initPool threads) := by
  simp [PoolInv, initPool]

theorem poolInv_step {threads : Nat} {s s' : PoolState}
    (hinv : PoolInv threads s) (hstep : PoolStep s s') :
    PoolInv threads s' := by
  obtain ⟨hbal, hcard, hcount, hexit, hnodup, hbound⟩ := hinv
  cases hstep with
  | submit hstop =>
    have hfresh : Multiset.card s.submitted ∉ s.submitted := fun hmem =>
      lt_irrefl _ (hbound _ hmem)
    refine ⟨?_, hcard, hcount, ?_, ?_, ?_⟩
    · dsimp only
      rw [Multiset.insert_eq_cons, hbal, ← Multiset.coe_add,
        Multiset.coe_singleton, ← Multiset.singleton_add]
      abel
    · dsimp only
      intro h
      exact absurd (hexit h).1 (by simp [hstop])
    · dsimp only
      simp only [Multiset.insert_eq_cons, Multiset.nodup_cons]
      exact ⟨hfresh, hnodup⟩
    · dsimp only
      intro t ht
      simp only [Multiset.insert_eq_cons, Multiset.card_cons]
      rcases Multiset.mem_cons.mp ht with rfl | ht
      · omega
      · have := hbound t ht
        omega
  | take t rest hq hi =>
    refine ⟨?_, ?_, by dsimp only; omega, ?_, hnodup, hbound⟩
    · dsimp only
      rw [hbal, hq, ← Multiset.cons_coe, Multiset.insert_eq_cons,
        ← Multiset.singleton_add, ← Multiset.singleton_add]
      abel
    · dsimp only
      simp only [Multiset.insert_eq_cons, Multiset.card_cons]
      omega
    · dsimp only
      intro h
      obtain ⟨-, hq0⟩ := hexit h
      rw [hq] at hq0
      exact absurd hq0 (List.cons_ne_nil t rest)
  | finish t ht =>
    have hpos : 0 < Multiset.card s.running :=
      Multiset.card_pos_iff_exists_mem.mpr ⟨t, ht⟩
    refine ⟨?_, ?_, by dsimp only; omega, hexit, hnodup, hbound⟩
    · dsimp only
      have h1 : s.running = {t} + s.running.erase t := by
        rw [Multiset.singleton_add, Multiset.cons_erase ht]
      conv_lhs => rw [hbal, h1]
      rw [Multiset.insert_eq_cons, ← Multiset.singleton_add]
      abel
    · dsimp only
      simp only [Multiset.card_erase_of_mem ht, Nat.pred_eq_sub_one]
      omega
  | setStop =>
    exact ⟨hbal, hcard, hcount, fun h => ⟨rfl, (hexit h).2⟩, hnodup, hbound⟩
  | exit hs hq hi =>
    exact ⟨hbal, hcard, by dsimp only; omega, fun _ => ⟨hs, hq⟩, hnodup,
      hbound⟩

theorem poolInv_reach {threads : Nat} {s : PoolState}
    (h : PoolReach threads s) : PoolInv threads s := by
  induction h with
  | init => exact poolInv_init threads
  | step hr hst ih => exact poolInv_step ih hst

/-- C2: task conservation in the pool.  First part: in any reachable state
in which all workers have exited (the destructor's joins have all
returned), the multiset of executed tasks equals the multiset of submitted
tasks — no task is lost, none ran twice — and the queue was drained and
`stop` was set.  Second part: a step that makes a worker exit its loop
happens only from a state with the stop flag set and the queue empty. -/
theorem pool_executes_all_tasks_once (threads : Nat) (s : PoolState)
    (hreach : PoolReach threads s) (hall : s.exited = threads)
    (hpos : 0 < threads) :
    (s.executed = s.submitted ∧ s.executed.Nodup ∧ s.queue = [] ∧
      s.running = 0 ∧ s.stop = true) ∧
    ∀ s1 s2 : PoolState, PoolStep s1 s2 → s2.exited = s1.exited + 1 →
      s1.stop = true ∧ s1.queue = [] := by
  constructor
  · obtain ⟨hbal, hcard, hcount, hexit, hnodup, hbound⟩ := poolInv_reach hreach
    have hbusy : s.busy = 0 := by omega
    have hrun : s.running = 0 := by
      rw [hbusy] at hcard
      exact Multiset.card_eq_zero.mp hcard
    obtain ⟨hstop, hq⟩ := hexit (by omega)
    have hexec : s.executed = s.submitted := by
      rw [hbal, hq, hrun]
      simp
    exact ⟨hexec, hexec ▸ hnodup, hq, hrun, hstop⟩
  · intro s1 s2 hstep hex
    cases hstep with
    | submit hstop => simp at hex
    | take t rest hq hi => simp at hex
    | finish t ht => simp at hex
    | setStop => simp at hex
    | exit hs hq hi => exact ⟨hs, hq⟩

/-- Witness for C2: one worker and one submitted task, run through the full
lifecycle — enqueue, claim, execute, destructor sets stop, worker exits. -/
theorem pool_executes_all_tasks_once_witness :
    ∃ s : PoolState, (PoolReach 1 s ∧ s.exited = 1 ∧ 0 < 1) ∧
      ((s.executed = s.submitted ∧ s.executed.Nodup ∧ s.queue = [] ∧
          s.running = 0 ∧ s.stop = true) ∧
        ∀ s1 s2 : PoolState, PoolStep s1 s2 → s2.exited = s1.exited + 1 →
          s1.stop = true ∧ s1.queue = []) := by
  have h0 : PoolReach 1 (initPool 1) := PoolReach.init
  have h1 := h0.step (PoolStep.submit _ rfl)
  have h2 := h1.step (PoolStep.take _ 0 [] (by decide) (by decide))
  have h3 := h2.step (PoolStep.finish _ 0 (by decide))
  have h4 := h3.step (PoolStep.setStop _)
  have h5 := h4.step (PoolStep.exit _ (by decide) (by decide) (by decide))
  exact ⟨_, ⟨h5, by decide, by decide⟩,
    pool_executes_all_tasks_once 1 _ h5 (by decide) (by decide)⟩

end SearchEngineSpec
